import Mathlib

/-!
Verification of the core logic of the obsidian-file-notes-plugin repository.

The TypeScript sources are shallowly embedded: strings are Lean `String`s
manipulated through their underlying `List Char`, the vault is the list of
paths of the files it currently contains, and the asynchronous storage
mutations of a batch (`vault.create` / `vault.delete`) are modelled by an
explicit failure oracle `fails : String → Bool` telling, per note path,
whether the storage mutation throws.  Note contents are irrelevant to every
property below (the batch counters only depend on existence checks), so the
vault records paths only.
-/

/- ### Generic string helpers (embedding of the JS string primitives used) -/

/-- Embedding of JS `s.startsWith(p)`. -/
def strStartsWith (s p : String) : Bool :=
  p.data.isPrefixOf s.data

/-- Embedding of JS `s.endsWith(p)`. -/
def strEndsWith (s p : String) : Bool :=
  p.data.isSuffixOf s.data

/-- Embedding of JS `s.toLowerCase()` (characterwise lowercasing; the
sources only apply it to file extensions). -/
def strToLower (s : String) : String :=
  ⟨s.data.map Char.toLower⟩

/-- Embedding of JS `s.trim()`: strip whitespace from both ends. -/
def trimChars (cs : List Char) : List Char :=
  ((cs.dropWhile Char.isWhitespace).reverse.dropWhile Char.isWhitespace).reverse

/-- Embedding of JS `s.split(',')`: split on every comma; `""` yields
`[""]` and consecutive commas yield empty parts. -/
def splitCommaChars : List Char → List (List Char)
  | [] => [[]]
  | c :: rest =>
    if c = ',' then [] :: splitCommaChars rest
    else
      match splitCommaChars rest with
      | [] => [[c]]
      | s :: ss => (c :: s) :: ss

/- ### Note path derivation, `file-operations.ts` (`getNotePath`)

The source is `file.path.replace(/\.[^.]+$/, '.md')`: the regex matches a
dot followed by one or more non-dot characters at the end of the string,
i.e. the last dot of the path provided at least one character follows it
(all of which are then automatically non-dots); if there is no such match
the path is returned unchanged. -/

/-- Holds (as `true`) exactly when the regex `\.[^.]+$` matches `cs`: there is a dot,
and at least one (necessarily non-dot) character after the last dot. -/
def hasTrailingExt (cs : List Char) : Bool :=
  let rev := cs.reverse
  let ext := rev.takeWhile (fun c => c ≠ '.')
  let rest := rev.dropWhile (fun c => c ≠ '.')
  !ext.isEmpty && !rest.isEmpty

/-- The characters of the matched extension (after the last dot), when the
regex matches; `[]` otherwise. -/
def trailingExt (cs : List Char) : List Char :=
  let rev := cs.reverse
  let ext := rev.takeWhile (fun c => c ≠ '.')
  let rest := rev.dropWhile (fun c => c ≠ '.')
  if ext.isEmpty || rest.isEmpty then [] else ext.reverse

/-- Embedding of `path.replace(/\.[^.]+$/, '.md')` on the character list. -/
def replaceExtChars (cs : List Char) : List Char :=
  let rev := cs.reverse
  let ext := rev.takeWhile (fun c => c ≠ '.')
  let rest := rev.dropWhile (fun c => c ≠ '.')
  if ext.isEmpty || rest.isEmpty then cs
  else rest.tail.reverse ++ ('.' :: 'm' :: 'd' :: [])

/-- Embedding of `FileNoteOperations.getNotePath`: replace the trailing `.<ext>` of the
source path with `.md`; a path with no extension is returned unchanged. -/
def getNotePath (path : String) : String :=
  ⟨replaceExtChars path.data⟩

/- ### Data model -/

/-- The fields of an Obsidian `TFile` the plugin reads. -/
structure TFile where
  path : String
  name : String
  extension : String
deriving DecidableEq, Repr

/-- The plugin settings (`settings.ts`), restricted to the fields the
embedded operations consume. -/
structure FileNoteSettings where
  fileExtensions : String
  autoCreate : Bool
  excludedFiles : List String
  excludedFolders : List String
  hideFilesWithNotes : Bool
  noteTemplate : String
deriving Repr

/-- Result of a batch file note operation (`BatchOperationResult`). -/
structure BatchOperationResult where
  success : Nat
  skipped : Nat
  failed : Nat
deriving DecidableEq, Repr

/-- Componentwise sum of two batch results. -/
def addResult (a b : BatchOperationResult) : BatchOperationResult :=
  ⟨a.success + b.success, a.skipped + b.skipped, a.failed + b.failed⟩

/- ### Batch operation engine, `file-operations.ts`

`createFileNotes` / `removeFileNotes` loop over the file list; per file they
check existence of the derived note path and then attempt the storage
mutation inside a `try`/`catch`, counting `success`/`skipped`/`failed` and
always continuing with the next file.  The vault is the list of existing
file paths; `fails p = true` means the storage mutation at path `p`
throws. -/

/-- Embedding of `FileNoteOperations.createFileNotes`.  Returns the counters
together with the vault state after the batch. -/
def createFileNotes (fails : String → Bool) :
    List TFile → List String → BatchOperationResult × List String
  | [], vault => (⟨0, 0, 0⟩, vault)
  | f :: rest, vault =>
    let mdPath := getNotePath f.path
    if mdPath ∈ vault then
      let r := createFileNotes fails rest vault
      (⟨r.1.success, r.1.skipped + 1, r.1.failed⟩, r.2)
    else if fails mdPath then
      let r := createFileNotes fails rest vault
      (⟨r.1.success, r.1.skipped, r.1.failed + 1⟩, r.2)
    else
      let r := createFileNotes fails rest (mdPath :: vault)
      (⟨r.1.success + 1, r.1.skipped, r.1.failed⟩, r.2)

/-- Embedding of `FileNoteOperations.removeFileNotes`. -/
def removeFileNotes (fails : String → Bool) :
    List TFile → List String → BatchOperationResult × List String
  | [], vault => (⟨0, 0, 0⟩, vault)
  | f :: rest, vault =>
    let mdPath := getNotePath f.path
    if mdPath ∈ vault then
      if fails mdPath then
        let r := removeFileNotes fails rest vault
        (⟨r.1.success, r.1.skipped, r.1.failed + 1⟩, r.2)
      else
        let r := removeFileNotes fails rest (vault.erase mdPath)
        (⟨r.1.success + 1, r.1.skipped, r.1.failed⟩, r.2)
    else
      let r := removeFileNotes fails rest vault
      (⟨r.1.success, r.1.skipped + 1, r.1.failed⟩, r.2)

/- ### Note content generation, `file-operations.ts` (`getNoteContent`)

The source is `this.settings.noteTemplate.replace(/\{\{filename\}\}/g, file.name)`.
JS `String.prototype.replace` treats the replacement string according to
ECMA-262 `GetSubstitution`: since the pattern has no capture groups, the
sequences `$$`, `$&`, `$` + backquote and `$` + apostrophe in `file.name`
are substituted (escaped dollar, matched text, preceding portion, following
portion) and every other character is copied literally. -/

/-- The literal placeholder matched by the regex, `{{filename}}`. -/
def placeholderChars : List Char := "\x7b\x7bfilename\x7d\x7d".data

/-- ECMA-262 `GetSubstitution` for a pattern with no capture groups:
expands `$$`, `$&`, `$` + backquote (code 96) and `$` + apostrophe
(code 39) inside the replacement string; all else is literal. -/
def getSubstitution (matched before after : List Char) : List Char → List Char
  | [] => []
  | [c] => [c]
  | c₁ :: c₂ :: rest =>
    if c₁ = '$' then
      if c₂ = '$' then '$' :: getSubstitution matched before after rest
      else if c₂ = '&' then matched ++ getSubstitution matched before after rest
      else if c₂ = Char.ofNat 96 then before ++ getSubstitution matched before after rest
      else if c₂ = Char.ofNat 39 then after ++ getSubstitution matched before after rest
      else c₁ :: getSubstitution matched before after (c₂ :: rest)
    else c₁ :: getSubstitution matched before after (c₂ :: rest)

/-- Left-to-right global scan of `template`, replacing each non-overlapping
occurrence of the placeholder by `GetSubstitution` applied to `name`.
`done` accumulates (reversed) the part of the original already scanned, so
that `before`/`after` are the portions of the original string around the
current match, as ECMA-262 prescribes. -/
def replaceScan (name : List Char) (done : List Char) : List Char → List Char
  | '\x7b' :: '\x7b' :: 'f' :: 'i' :: 'l' :: 'e' :: 'n' :: 'a' :: 'm' :: 'e' ::
      '\x7d' :: '\x7d' :: rest =>
    getSubstitution placeholderChars done.reverse rest name ++
      replaceScan name (placeholderChars.reverse ++ done) rest
  | c :: cs => c :: replaceScan name (c :: done) cs
  | [] => []

/-- Embedding of `template.replace(/\{\{filename\}\}/g, name)`. -/
def replaceFilenameAll (template name : List Char) : List Char :=
  replaceScan name [] template

/-- Embedding of `FileNoteOperations.getNoteContent`. -/
def getNoteContent (settings : FileNoteSettings) (file : TFile) : String :=
  ⟨replaceFilenameAll settings.noteTemplate.data file.name.data⟩

/- ### Eligibility and exclusion filtering, `main.ts` -/

/-- Embedding of `EXCLUDED_EXTENSIONS`: extensions that never get file notes. -/
def EXCLUDED_EXTENSIONS : List String := ["md", "canvas", "base"]

/-- Embedding of `FileNotePlugin.isEligibleFile` (the `instanceof TFile` part of the
guard is carried by the `TFile` type of the embedding). -/
def isEligibleFile (f : TFile) : Bool :=
  !(EXCLUDED_EXTENSIONS.contains (strToLower f.extension))

/-- Embedding of `FileNotePlugin.getExtensions`: split the raw configuration string on
commas, trim and lowercase each part, drop empties and `md`, collect into a
set (modelled as a duplicate-free list; insertion order is not used by any
consumer). -/
def getExtensions (fileExtensions : String) : List String :=
  (((splitCommaChars fileExtensions.data).map
      (fun cs => strToLower ⟨trimChars cs⟩)).filter
    (fun e => e.data.length > 0 && e ≠ "md")).dedup

/-- Embedding of `FileNotePlugin.isInExcludedFolder`. -/
def isInExcludedFolder (s : FileNoteSettings) (filePath : String) : Bool :=
  s.excludedFolders.any (fun folder => strStartsWith filePath (folder ++ "/"))

/-- Embedding of `FileNotePlugin.shouldCreateNoteFor`.  The `excludedFilesSet` the source
consults is rebuilt from `settings.excludedFiles` after every load/save, so
its membership test is embedded as membership in that list. -/
def shouldCreateNoteFor (s : FileNoteSettings) (f : TFile) : Bool :=
  isEligibleFile f &&
  (getExtensions s.fileExtensions).contains (strToLower f.extension) &&
  !(s.excludedFiles.contains f.path) &&
  !(isInExcludedFolder s f.path)

/-- File selection of `FileNotePlugin.removeAllFileNotes`:
`getFiles().filter(f => this.isEligibleFile(f))` — settings play no role. -/
def removeAllFileNotesSelection (vaultFiles : List TFile) : List TFile :=
  vaultFiles.filter (fun f => isEligibleFile f)

/-- File selection of `FileNotePlugin.removeFileNotesInFolder`. -/
def removeFileNotesInFolderSelection (folder : String) (vaultFiles : List TFile) :
    List TFile :=
  vaultFiles.filter (fun f => strStartsWith f.path (folder ++ "/") && isEligibleFile f)

/- ### Exclusion toggles, `main.ts`

Both toggles mutate the settings array guarded by the mirror set (which is
kept consistent with the array by `rebuildExclusionSets` after every
load/save), so the guard is embedded as list membership. -/

/-- Embedding of `FileNotePlugin.toggleFileExclusion`, as a transform of
`settings.excludedFiles`. -/
def toggleFileExclusion (excludedFiles : List String) (path : String)
    (exclude : Bool) : List String :=
  if exclude then
    if path ∈ excludedFiles then excludedFiles else excludedFiles ++ [path]
  else
    excludedFiles.filter (fun p => p ≠ path)

/-- Embedding of `FileNotePlugin.toggleFolderExclusion`, as a transform of
`settings.excludedFolders`. -/
def toggleFolderExclusion (excludedFolders : List String) (path : String)
    (exclude : Bool) : List String :=
  if exclude then
    if path ∈ excludedFolders then excludedFolders else excludedFolders ++ [path]
  else
    excludedFolders.filter (fun p => p ≠ path)

/- ### Hidden files manager, `hidden-files.ts`

An explorer item is a path together with its current marker (presence of
the `file-note-hidden` class on its element).  The manager's state is the
item list plus the `hasHiddenFiles` flag.  The environment checks (explorer
leaf present, `fileItems` defined) are outside the model. -/

structure ExplorerItem where
  path : String
  hidden : Bool
deriving DecidableEq, Repr

structure HiddenFilesState where
  hasHiddenFiles : Bool
  items : List ExplorerItem
deriving DecidableEq, Repr

/-- The per-item loop of `HiddenFilesManager.update`: returns the updated
items and the number of items hidden by this pass (`hiddenCount`). -/
def updateLoop (hide : Bool) (vault : List String) :
    List ExplorerItem → List ExplorerItem × Nat
  | [] => ([], 0)
  | it :: rest =>
    let r := updateLoop hide vault rest
    let notePath := getNotePath it.path
    if it.path = notePath then (it :: r.1, r.2)
    else if hide && notePath ∈ vault then (⟨it.path, true⟩ :: r.1, r.2 + 1)
    else (⟨it.path, false⟩ :: r.1, r.2)

/-- Embedding of `HiddenFilesManager.update`: early return when the setting is off and
nothing is hidden; otherwise run the loop and record whether anything got
hidden. -/
def hfUpdate (hide : Bool) (vault : List String) (st : HiddenFilesState) :
    HiddenFilesState :=
  if !hide && !st.hasHiddenFiles then st
  else
    let r := updateLoop hide vault st.items
    ⟨r.2 > 0, r.1⟩

/- ### Notes-folder override (C3)

The provided sources declare `FileNoteSettings.notesFolder` (empty = same
folder, `./Name` = relative subfolder, `Name` = central folder) but the
folder-aware `getNotePath` implementation itself is not among them — the
`file-operations.ts` present derives colocated paths only. -/

/-- Last path segment (after the final `/`). -/
def baseNameChars (cs : List Char) : List Char :=
  (cs.reverse.takeWhile (fun c => c ≠ '/')).reverse

/-- Everything before the final `/` (empty when the path has no `/`). -/
def parentDirChars (cs : List Char) : List Char :=
  ((cs.reverse.dropWhile (fun c => c ≠ '/')).tail).reverse

/-- Modelled from the spec: the notes-folder-aware note path derivation is
missing from the provided sources (only the `notesFolder` settings
declaration exists).  Per the spec and the settings documentation: empty
value — the note sits beside the source (plain `getNotePath`); a
relative-prefixed value `./X` — the note goes into subfolder `X` of the
source file's own folder; a plain value `X` — all notes go into the single
shared folder `X`; in the folder modes the note keeps the source's base
name with the extension replaced by `.md`. -/
def getNotePathWithFolder (notesFolder : String) (path : String) : String :=
  if notesFolder = "" then getNotePath path
  else if strStartsWith notesFolder "./" then
    let dir := parentDirChars path.data
    ⟨(if dir.isEmpty then [] else dir ++ ['/']) ++ notesFolder.data.drop 2 ++
      '/' :: replaceExtChars (baseNameChars path.data)⟩
  else
    ⟨notesFolder.data ++ '/' :: replaceExtChars (baseNameChars path.data)⟩

/- ### Helper lemmas on `takeWhile` / `dropWhile` decompositions -/

theorem takeWhile_append_of_all {α : Type} (p : α → Bool) (xs ys : List α)
    (h : ∀ c ∈ xs, p c = true) :
    (xs ++ ys).takeWhile p = xs ++ ys.takeWhile p := by
  induction xs with
  | nil => simp
  | cons x xs ih =>
    have hx : p x = true := h x (by simp)
    simp only [List.cons_append, List.takeWhile_cons_of_pos hx, List.cons.injEq, true_and]
    exact ih (fun c hc => h c (by simp [hc]))

theorem dropWhile_append_of_all {α : Type} (p : α → Bool) (xs ys : List α)
    (h : ∀ c ∈ xs, p c = true) :
    (xs ++ ys).dropWhile p = ys.dropWhile p := by
  induction xs with
  | nil => simp
  | cons x xs ih =>
    have hx : p x = true := h x (by simp)
    simp only [List.cons_append, List.dropWhile_cons_of_pos hx]
    exact ih (fun c hc => h c (by simp [hc]))

theorem dropWhile_head_false {α : Type} (p : α → Bool) (l : List α) (a : α) (as : List α)
    (h : l.dropWhile p = a :: as) : p a = false := by
  induction l with
  | nil => simp at h
  | cons x xs ih =>
    by_cases hx : p x = true
    · rw [List.dropWhile_cons_of_pos hx] at h; exact ih h
    · rw [List.dropWhile_cons_of_neg hx] at h
      cases h; simpa using hx

/-- On a path of the shape `pre ++ "." ++ ext` with `ext` nonempty and
dot-free, the regex matches exactly that suffix and replaces it by `.md`. -/
theorem replaceExtChars_decomp (pre ext : List Char) (hne : ext ≠ [])
    (hdot : '.' ∉ ext) :
    replaceExtChars (pre ++ '.' :: ext) = pre ++ '.' :: 'm' :: 'd' :: [] := by
  have hall : ∀ c ∈ ext.reverse, (fun c => decide (c ≠ '.')) c = true := by
    intro c hc
    simp only [decide_eq_true_eq]
    intro hceq
    exact hdot (by simpa [hceq] using (List.mem_reverse.mp hc))
  have hrev : (pre ++ '.' :: ext).reverse = ext.reverse ++ '.' :: pre.reverse := by
    simp
  have htake : ((pre ++ '.' :: ext).reverse).takeWhile (fun c => decide (c ≠ '.')) =
      ext.reverse := by
    rw [hrev, takeWhile_append_of_all _ _ _ hall]
    simp
  have hdrop : ((pre ++ '.' :: ext).reverse).dropWhile (fun c => decide (c ≠ '.')) =
      '.' :: pre.reverse := by
    rw [hrev, dropWhile_append_of_all _ _ _ hall]
    simp
  have hext_ne : ext.reverse.isEmpty = false := by
    cases hr : ext.reverse with
    | nil => exact absurd (by simpa using hr) hne
    | cons a as => simp [hr]
  simp only [replaceExtChars, htake, hdrop]
  simp [hext_ne]

/-- When the regex matches, the input decomposes as `pre ++ "." ++ ext` with
`ext` the (nonempty, dot-free) matched extension. -/
theorem hasTrailingExt_decomp (cs : List Char) (h : hasTrailingExt cs = true) :
    ∃ pre ext, cs = pre ++ '.' :: ext ∧ ext ≠ [] ∧ '.' ∉ ext ∧
      trailingExt cs = ext := by
  have hsplit := List.takeWhile_append_dropWhile (fun c => decide (c ≠ '.')) cs.reverse
  simp only [hasTrailingExt, Bool.and_eq_true, Bool.not_eq_true'] at h
  obtain ⟨hext, hrest⟩ := h
  cases hr : (cs.reverse).dropWhile (fun c => decide (c ≠ '.')) with
  | nil => rw [hr] at hrest; simp at hrest
  | cons a as =>
    have ha : (fun c => decide (c ≠ '.')) a = false :=
      dropWhile_head_false (fun c => decide (c ≠ '.')) cs.reverse a as hr
    have ha' : a = '.' := by simpa using ha
    rw [hr, ha'] at hsplit
    refine ⟨as.reverse, ((cs.reverse).takeWhile (fun c => decide (c ≠ '.'))).reverse,
      ?_, ?_, ?_, ?_⟩
    · calc cs = cs.reverse.reverse := by simp
      _ = ((cs.reverse).takeWhile (fun c => decide (c ≠ '.')) ++ '.' :: as).reverse := by
          rw [hsplit]
      _ = as.reverse ++ '.' :: ((cs.reverse).takeWhile (fun c => decide (c ≠ '.'))).reverse := by
          simp
    · intro hnil
      have : (cs.reverse).takeWhile (fun c => decide (c ≠ '.')) = [] := by
        simpa using congrArg List.reverse hnil
      rw [this] at hext; simp at hext
    · intro hmem
      have := List.mem_takeWhile_imp (List.mem_reverse.mp hmem)
      simp at this
    · simp only [trailingExt, hr]
      have hext' : ((cs.reverse).takeWhile (fun c => decide (c ≠ '.'))).isEmpty = false := hext
      simp [hext']

theorem replaceExtChars_no_match (cs : List Char) (h : hasTrailingExt cs = false) :
    replaceExtChars cs = cs := by
  unfold replaceExtChars
  dsimp only
  split
  · rfl
  · rename_i hcond
    exfalso
    unfold hasTrailingExt at h
    rw [Bool.and_eq_false_iff] at h
    simp only [Bool.not_eq_false'] at h
    rcases h with h | h <;> rw [h] at hcond <;> simp at hcond

/-- C2: for every source file (per the spec's glossary a file eligible for
note creation, so in particular its lowercased extension is not the note
extension `md`) whose path contains an extension, `getNotePath` returns a
path that differs from the source path and always ends in `.md`; for a path
containing no extension it returns the path unchanged; and eligibility
indeed rules out the `md` extension. -/
theorem C2_note_path_differs (p : String)
    (h1 : hasTrailingExt p.data = true)
    (h2 : strToLower ⟨trailingExt p.data⟩ ≠ "md") :
    strEndsWith (getNotePath p) ".md" = true ∧ getNotePath p ≠ p ∧
      (∀ q : String, hasTrailingExt q.data = false → getNotePath q = q) ∧
      (∀ f : TFile, isEligibleFile f = true → strToLower f.extension ≠ "md") := by
  obtain ⟨pre, ext, hcs, hne, hdot, htr⟩ := hasTrailingExt_decomp p.data h1
  have hdata : (getNotePath p).data = pre ++ '.' :: 'm' :: 'd' :: [] := by
    show replaceExtChars p.data = _
    rw [hcs]
    exact replaceExtChars_decomp pre ext hne hdot
  have hextne : ext ≠ 'm' :: 'd' :: [] := by
    intro he
    apply h2
    rw [htr, he]
    decide
  refine ⟨?_, ?_, ?_, ?_⟩
  · simp only [strEndsWith]
    rw [List.isSuffixOf_iff_suffix]
    show ('.' :: 'm' :: 'd' :: []) <:+ (getNotePath p).data
    rw [hdata]
    exact List.suffix_append pre ('.' :: 'm' :: 'd' :: [])
  · intro heq
    have hd : (getNotePath p).data = p.data := congrArg String.data heq
    rw [hdata, hcs] at hd
    have := List.append_cancel_left hd
    simp only [List.cons.injEq, true_and] at this
    exact hextne this.symm
  · intro q hq
    apply String.ext
    show replaceExtChars q.data = q.data
    exact replaceExtChars_no_match q.data hq
  · intro f hf hmd
    simp only [isEligibleFile, EXCLUDED_EXTENSIONS] at hf
    rw [hmd] at hf
    simp at hf

/-- Witness for C2 at path `video.mp4`. -/
theorem C2_note_path_differs_witness :
    strEndsWith (getNotePath "video.mp4") ".md" = true ∧
      getNotePath "video.mp4" ≠ "video.mp4" :=
  ⟨(C2_note_path_differs "video.mp4" (by decide) (by decide)).1,
   (C2_note_path_differs "video.mp4" (by decide) (by decide)).2.1⟩

/- ### Batch engine lemmas -/

theorem createFileNotes_append (fails : String → Bool) (l₁ l₂ : List TFile)
    (v : List String) :
    createFileNotes fails (l₁ ++ l₂) v =
      (addResult (createFileNotes fails l₁ v).1
        (createFileNotes fails l₂ (createFileNotes fails l₁ v).2).1,
       (createFileNotes fails l₂ (createFileNotes fails l₁ v).2).2) := by
  induction l₁ generalizing v with
  | nil => simp [createFileNotes, addResult]
  | cons f rest ih =>
    simp only [List.cons_append, createFileNotes]
    split_ifs <;>
      (simp [ih, addResult, Prod.ext_iff, BatchOperationResult.mk.injEq]; try omega)

theorem removeFileNotes_append (fails : String → Bool) (l₁ l₂ : List TFile)
    (v : List String) :
    removeFileNotes fails (l₁ ++ l₂) v =
      (addResult (removeFileNotes fails l₁ v).1
        (removeFileNotes fails l₂ (removeFileNotes fails l₁ v).2).1,
       (removeFileNotes fails l₂ (removeFileNotes fails l₁ v).2).2) := by
  induction l₁ generalizing v with
  | nil => simp [removeFileNotes, addResult]
  | cons f rest ih =>
    simp only [List.cons_append, removeFileNotes]
    split_ifs <;>
      (simp [ih, addResult, Prod.ext_iff, BatchOperationResult.mk.injEq]; try omega)

theorem createFileNotes_single (fails : String → Bool) (f : TFile) (v : List String) :
    createFileNotes fails [f] v =
      if getNotePath f.path ∈ v then (⟨0, 1, 0⟩, v)
      else if fails (getNotePath f.path) then (⟨0, 0, 1⟩, v)
      else (⟨1, 0, 0⟩, getNotePath f.path :: v) := by
  simp only [createFileNotes]

theorem removeFileNotes_single (fails : String → Bool) (f : TFile) (v : List String) :
    removeFileNotes fails [f] v =
      if getNotePath f.path ∈ v then
        if fails (getNotePath f.path) then (⟨0, 0, 1⟩, v)
        else (⟨1, 0, 0⟩, v.erase (getNotePath f.path))
      else (⟨0, 1, 0⟩, v) := by
  simp only [removeFileNotes]

theorem createFileNotes_total (fails : String → Bool) (files : List TFile)
    (v : List String) :
    (createFileNotes fails files v).1.success + (createFileNotes fails files v).1.skipped +
      (createFileNotes fails files v).1.failed = files.length := by
  induction files generalizing v with
  | nil => rfl
  | cons f rest ih =>
    simp only [createFileNotes]
    split_ifs
    · have := ih v; simp only [List.length_cons]; omega
    · have := ih v; simp only [List.length_cons]; omega
    · have := ih (getNotePath f.path :: v); simp only [List.length_cons]; omega

theorem removeFileNotes_total (fails : String → Bool) (files : List TFile)
    (v : List String) :
    (removeFileNotes fails files v).1.success + (removeFileNotes fails files v).1.skipped +
      (removeFileNotes fails files v).1.failed = files.length := by
  induction files generalizing v with
  | nil => rfl
  | cons f rest ih =>
    simp only [removeFileNotes]
    split_ifs
    · have := ih v; simp only [List.length_cons]; omega
    · have := ih (v.erase (getNotePath f.path)); simp only [List.length_cons]; omega
    · have := ih v; simp only [List.length_cons]; omega

/-- C1: the batch engine processes the files independently in list order: a
batch over `l₁ ++ l₂` is the batch over `l₁` followed by the batch over
`l₂` on the resulting vault, with counters added — so a failure inside `l₁`
never aborts the processing of `l₂`; on a single file, create skips when
the note already exists, fails (leaving the vault unchanged) when the
storage mutation throws, and otherwise creates the note, and remove skips
when the note is absent, fails when the deletion throws, and otherwise
deletes the note; and the three counters always account for every file of
the batch. -/
theorem C1_batch_engine (fails : String → Bool) (l₁ l₂ : List TFile) (f : TFile)
    (v : List String) :
    (createFileNotes fails (l₁ ++ l₂) v =
      (addResult (createFileNotes fails l₁ v).1
        (createFileNotes fails l₂ (createFileNotes fails l₁ v).2).1,
       (createFileNotes fails l₂ (createFileNotes fails l₁ v).2).2)) ∧
    (removeFileNotes fails (l₁ ++ l₂) v =
      (addResult (removeFileNotes fails l₁ v).1
        (removeFileNotes fails l₂ (removeFileNotes fails l₁ v).2).1,
       (removeFileNotes fails l₂ (removeFileNotes fails l₁ v).2).2)) ∧
    (createFileNotes fails [f] v =
      if getNotePath f.path ∈ v then (⟨0, 1, 0⟩, v)
      else if fails (getNotePath f.path) then (⟨0, 0, 1⟩, v)
      else (⟨1, 0, 0⟩, getNotePath f.path :: v)) ∧
    (removeFileNotes fails [f] v =
      if getNotePath f.path ∈ v then
        if fails (getNotePath f.path) then (⟨0, 0, 1⟩, v)
        else (⟨1, 0, 0⟩, v.erase (getNotePath f.path))
      else (⟨0, 1, 0⟩, v)) ∧
    ((createFileNotes fails l₁ v).1.success + (createFileNotes fails l₁ v).1.skipped +
      (createFileNotes fails l₁ v).1.failed = l₁.length) ∧
    ((removeFileNotes fails l₁ v).1.success + (removeFileNotes fails l₁ v).1.skipped +
      (removeFileNotes fails l₁ v).1.failed = l₁.length) :=
  ⟨createFileNotes_append fails l₁ l₂ v, removeFileNotes_append fails l₁ l₂ v,
   createFileNotes_single fails f v, removeFileNotes_single fails f v,
   createFileNotes_total fails l₁ v, removeFileNotes_total fails l₁ v⟩

/- ### Idempotence of batch create -/

theorem createFileNotes_vault_mono (fails : String → Bool) (files : List TFile)
    (v : List String) (x : String) (hx : x ∈ v) :
    x ∈ (createFileNotes fails files v).2 := by
  induction files generalizing v with
  | nil => exact hx
  | cons f rest ih =>
    simp only [createFileNotes]
    split_ifs
    · exact ih v hx
    · exact ih v hx
    · exact ih (getNotePath f.path :: v) (List.mem_cons_of_mem _ hx)

theorem createFileNotes_failed_zero_mem (fails : String → Bool) (files : List TFile)
    (v : List String) (h : (createFileNotes fails files v).1.failed = 0) :
    ∀ f ∈ files, getNotePath f.path ∈ (createFileNotes fails files v).2 := by
  induction files generalizing v with
  | nil => intro f hf; simp at hf
  | cons g rest ih =>
    intro f hf
    simp only [createFileNotes] at h ⊢
    split_ifs at h ⊢ with h1 h2
    · rcases List.mem_cons.mp hf with hfg | hfr
      · subst hfg; exact createFileNotes_vault_mono fails rest v _ h1
      · exact ih v h f hfr
    · exact absurd h (by simp)
    · rcases List.mem_cons.mp hf with hfg | hfr
      · subst hfg
        exact createFileNotes_vault_mono fails rest _ _ (List.mem_cons_self _ _)
      · exact ih (getNotePath g.path :: v) h f hfr

theorem createFileNotes_all_exist (fails : String → Bool) (files : List TFile)
    (v : List String) (h : ∀ f ∈ files, getNotePath f.path ∈ v) :
    createFileNotes fails files v = (⟨0, files.length, 0⟩, v) := by
  induction files generalizing v with
  | nil => rfl
  | cons f rest ih =>
    simp only [createFileNotes]
    rw [if_pos (h f (List.mem_cons_self _ _))]
    rw [ih v (fun g hg => h g (List.mem_cons_of_mem _ hg))]
    rfl

/-- C6: batch create is idempotent: when a first batch over `files`
completes with no storage failure, running the same batch again over the
resulting vault reports `success = 0` and `skipped = N` (and no failures),
and leaves the vault unchanged. -/
theorem C6_create_idempotent (fails : String → Bool) (files : List TFile)
    (v : List String) (h : (createFileNotes fails files v).1.failed = 0) :
    createFileNotes fails files (createFileNotes fails files v).2 =
      (⟨0, files.length, 0⟩, (createFileNotes fails files v).2) :=
  createFileNotes_all_exist fails files _
    (createFileNotes_failed_zero_mem fails files v h)

/-- Witness for C6: two files over a vault already containing `a.md`. -/
theorem C6_create_idempotent_witness :
    (createFileNotes (fun _ => false)
        (⟨"a.mp4", "a.mp4", "mp4"⟩ :: ⟨"b.pdf", "b.pdf", "pdf"⟩ :: [])
        ("a.md" :: [])).1.failed = 0 ∧
    createFileNotes (fun _ => false)
        (⟨"a.mp4", "a.mp4", "mp4"⟩ :: ⟨"b.pdf", "b.pdf", "pdf"⟩ :: [])
        ((createFileNotes (fun _ => false)
          (⟨"a.mp4", "a.mp4", "mp4"⟩ :: ⟨"b.pdf", "b.pdf", "pdf"⟩ :: [])
          ("a.md" :: [])).2) =
      (⟨0, 2, 0⟩,
       (createFileNotes (fun _ => false)
          (⟨"a.mp4", "a.mp4", "mp4"⟩ :: ⟨"b.pdf", "b.pdf", "pdf"⟩ :: [])
          ("a.md" :: [])).2) :=
  ⟨by decide,
   C6_create_idempotent (fun _ => false)
     (⟨"a.mp4", "a.mp4", "mp4"⟩ :: ⟨"b.pdf", "b.pdf", "pdf"⟩ :: [])
     ("a.md" :: []) (by decide)⟩

/- ### Eligibility filtering (C5) -/

theorem strStartsWith_append (x y : String) : strStartsWith (x ++ y) x = true := by
  simp only [strStartsWith, String.data_append]
  rw [ List.isPrefixOf_iff_prefix]
  exact List.prefix_append _ _

/-- C5: `shouldCreateNoteFor` selects a file exactly when its lowercased
extension is outside the reserved formats, inside the configured extension
set, its path is not individually excluded, and no excluded folder is a
`folder + "/"` prefix of its path; and folder exclusion is therefore
transitive to all descendants: a file at `A/B/c.e` is rejected whenever `A`
or `A/B` is in the excluded-folders list. -/
theorem C5_should_create_iff (s : FileNoteSettings) (f : TFile) (A B c e : String)
    (hpath : f.path = A ++ "/" ++ B ++ "/" ++ c ++ "." ++ e)
    (hmem : A ∈ s.excludedFolders ∨ A ++ "/" ++ B ∈ s.excludedFolders) :
    (∀ (t : FileNoteSettings) (g : TFile),
      shouldCreateNoteFor t g = true ↔
        strToLower g.extension ∉ EXCLUDED_EXTENSIONS ∧
        strToLower g.extension ∈ getExtensions t.fileExtensions ∧
        g.path ∉ t.excludedFiles ∧
        ¬ ∃ folder ∈ t.excludedFolders, strStartsWith g.path (folder ++ "/") = true) ∧
    shouldCreateNoteFor s f = false := by
  constructor
  · intro t g
    simp [shouldCreateNoteFor, isEligibleFile, isInExcludedFolder, List.any_eq_true]
    tauto
  · have hA : strStartsWith f.path (A ++ "/") = true := by
      rw [hpath]
      have hre : A ++ "/" ++ B ++ "/" ++ c ++ "." ++ e =
          (A ++ "/") ++ (B ++ "/" ++ c ++ "." ++ e) := by
        apply String.ext
        simp [String.data_append]
      rw [hre]
      exact strStartsWith_append _ _
    have hAB : strStartsWith f.path ((A ++ "/" ++ B) ++ "/") = true := by
      rw [hpath]
      have hre : A ++ "/" ++ B ++ "/" ++ c ++ "." ++ e =
          ((A ++ "/" ++ B) ++ "/") ++ (c ++ "." ++ e) := by
        apply String.ext
        simp [String.data_append]
      rw [hre]
      exact strStartsWith_append _ _
    have hfold : isInExcludedFolder s f.path = true := by
      simp only [isInExcludedFolder, List.any_eq_true]
      rcases hmem with hm | hm
      · exact ⟨A, hm, hA⟩
      · exact ⟨A ++ "/" ++ B, hm, hAB⟩
    simp [shouldCreateNoteFor, hfold]

/-- Witness for C5: folder `A` excluded rejects `A/B/c.mp4`. -/
theorem C5_should_create_iff_witness :
    shouldCreateNoteFor ⟨"mp4", false, [], ("A" :: []), false, ""⟩
      ⟨"A/B/c.mp4", "c.mp4", "mp4"⟩ = false :=
  (C5_should_create_iff ⟨"mp4", false, [], ("A" :: []), false, ""⟩
    ⟨"A/B/c.mp4", "c.mp4", "mp4"⟩ "A" "B" "c" "mp4" rfl (by decide)).2

/- ### Extension filter (C7) -/

/-- C7: `getExtensions` yields exactly the distinct, non-empty,
whitespace-trimmed, lowercased comma-separated entries of the raw
configuration string, with the note extension `md` excluded; being a total
function of the raw string, malformed input (extra commas, surrounding
whitespace) produces no error and is silently normalized away. -/
theorem C7_get_extensions (raw e : String) :
    (getExtensions raw).Nodup ∧
    (e ∈ getExtensions raw ↔
      e ≠ "" ∧ e ≠ "md" ∧
      ∃ part ∈ splitCommaChars raw.data, strToLower ⟨trimChars part⟩ = e) := by
  have hlen : (e ≠ "") ↔ 0 < e.data.length := by
    constructor
    · intro h
      rcases Nat.eq_zero_or_pos e.data.length with h0 | h0
      · exact absurd (String.ext ((List.length_eq_zero.mp h0).trans rfl)) h
      · exact h0
    · intro h he
      subst he
      simp at h
  refine ⟨List.nodup_dedup _, ?_⟩
  simp only [getExtensions]
  rw [List.mem_dedup, List.mem_filter]
  constructor
  · rintro ⟨hmem, hcond⟩
    rw [List.mem_map] at hmem
    obtain ⟨part, hpart, heq⟩ := hmem
    simp only [Bool.and_eq_true, decide_eq_true_eq] at hcond
    exact ⟨hlen.mpr hcond.1, hcond.2, part, hpart, heq⟩
  · rintro ⟨h1, h2, part, hpart, heq⟩
    refine ⟨List.mem_map.mpr ⟨part, hpart, heq⟩, ?_⟩
    simp only [Bool.and_eq_true, decide_eq_true_eq]
    exact ⟨hlen.mp h1, h2⟩

/- ### Exclusion toggles (C8) -/

/-- C8: toggling exclusion twice on the same path returns the exclusion
list to its original membership — excluding then re-including a path not
currently excluded restores the list exactly, and re-excluding after
including a currently excluded path preserves membership; adding an
already-present path inserts no duplicate (the add is a no-op) and removing
an absent path is a no-op; the folder toggle behaves identically to the
file toggle. -/
theorem C8_toggle_exclusion (lst : List String) (p q : String)
    (hp : p ∉ lst) (hq : q ∈ lst) :
    (toggleFileExclusion (toggleFileExclusion lst p true) p false = lst) ∧
    (∀ x, x ∈ toggleFileExclusion (toggleFileExclusion lst q false) q true ↔ x ∈ lst) ∧
    (toggleFileExclusion lst q true = lst) ∧
    (toggleFileExclusion lst p false = lst) ∧
    (∀ (l : List String) (a : String) (b : Bool),
      toggleFolderExclusion l a b = toggleFileExclusion l a b) := by
  have hfilter_self : lst.filter (fun x => decide (x ≠ p)) = lst :=
    List.filter_eq_self.mpr (fun a ha => decide_eq_true (fun he => hp (he ▸ ha)))
  refine ⟨?_, ?_, ?_, ?_, fun l a b => rfl⟩
  · show ((if p ∈ lst then lst else lst ++ [p]).filter (fun x => decide (x ≠ p))) = lst
    rw [if_neg hp, List.filter_append, hfilter_self]
    simp
  · intro x
    have hqf : q ∉ lst.filter (fun y => decide (y ≠ q)) := by simp
    show x ∈ (if q ∈ lst.filter (fun y => decide (y ≠ q)) then
        lst.filter (fun y => decide (y ≠ q))
      else lst.filter (fun y => decide (y ≠ q)) ++ [q]) ↔ x ∈ lst
    rw [if_neg hqf]
    by_cases hxq : x = q
    · subst hxq; simp [hq]
    · simp [hxq]
  · show (if q ∈ lst then lst else lst ++ [q]) = lst
    exact if_pos hq
  · show lst.filter (fun x => decide (x ≠ p)) = lst
    exact hfilter_self

/-- Witness for C8 with list `["a"]`, absent path `"b"`, present path `"a"`. -/
theorem C8_toggle_exclusion_witness :
    (toggleFileExclusion (toggleFileExclusion ("a" :: []) "b" true) "b" false = "a" :: []) ∧
    (toggleFileExclusion ("a" :: []) "a" true = "a" :: []) :=
  ⟨(C8_toggle_exclusion ("a" :: []) "b" "a" (by decide) (by decide)).1,
   (C8_toggle_exclusion ("a" :: []) "b" "a" (by decide) (by decide)).2.2.1⟩

/- ### Hidden files manager (C9) -/

theorem updateLoop_mem_spec (hide : Bool) (vault : List String)
    (items : List ExplorerItem)
    (hWF : ∀ it ∈ items, it.hidden = true → getNotePath it.path ≠ it.path) :
    ∀ it ∈ (updateLoop hide vault items).1,
      (it.hidden = true ↔
        (getNotePath it.path ≠ it.path ∧ hide = true ∧ getNotePath it.path ∈ vault)) := by
  induction items with
  | nil => intro it h; simp [updateLoop] at h
  | cons a rest ih =>
    have ihr := ih (fun it hm => hWF it (List.mem_cons_of_mem _ hm))
    intro it hmem
    simp only [updateLoop] at hmem
    split_ifs at hmem with h1 h2
    · rcases List.mem_cons.mp hmem with rfl | hm
      · constructor
        · intro hh
          exact absurd h1.symm (hWF it (List.mem_cons_self _ _) hh)
        · rintro ⟨hne, _⟩
          exact absurd h1.symm hne
      · exact ihr it hm
    · rcases List.mem_cons.mp hmem with rfl | hm
      · simp only [Bool.and_eq_true, decide_eq_true_eq] at h2
        constructor
        · intro _
          exact ⟨fun he => h1 he.symm, h2.1, h2.2⟩
        · intro _
          rfl
      · exact ihr it hm
    · rcases List.mem_cons.mp hmem with rfl | hm
      · simp only [Bool.and_eq_true, decide_eq_true_eq, not_and] at h2
        constructor
        · intro hh
          exact absurd hh (by simp)
        · rintro ⟨hne, hhide, hmemv⟩
          exact absurd hmemv (h2 hhide)
      · exact ihr it hm

theorem updateLoop_unhides (vault : List String) (items : List ExplorerItem)
    (hWF : ∀ it ∈ items, it.hidden = true → getNotePath it.path ≠ it.path) :
    ∀ it ∈ (updateLoop false vault items).1, it.hidden = false := by
  intro it hmem
  have := updateLoop_mem_spec false vault items hWF it hmem
  cases hh : it.hidden
  · rfl
  · obtain ⟨_, hfalse, _⟩ := this.mp hh
    exact absurd hfalse (by simp)

/-- C9: after an update pass of the hidden files manager with the hide
setting enabled, an explorer item is marked hidden iff its derived
candidate note path differs from its own path (it is not itself a note)
and a note exists at that derived path; after an update pass with the
setting disabled, no item remains marked hidden.  The hypotheses restrict
the incoming state to ones the manager itself produces: marked items are
never their own note (the loop leaves self-note items untouched), and the
`hasHiddenFiles` flag is clear only when nothing is marked. -/
theorem C9_hidden_files_update (hide : Bool) (vault : List String)
    (st : HiddenFilesState)
    (hWF : ∀ it ∈ st.items, it.hidden = true → getNotePath it.path ≠ it.path)
    (hFlag : st.hasHiddenFiles = false → ∀ it ∈ st.items, it.hidden = false) :
    (hide = true → ∀ it ∈ (hfUpdate true vault st).items,
      (it.hidden = true ↔
        (getNotePath it.path ≠ it.path ∧ getNotePath it.path ∈ vault))) ∧
    (hide = false → ∀ it ∈ (hfUpdate false vault st).items, it.hidden = false) := by
  constructor
  · intro _ it hmem
    have heq : (hfUpdate true vault st).items = (updateLoop true vault st.items).1 := rfl
    rw [heq] at hmem
    have := updateLoop_mem_spec true vault st.items hWF it hmem
    rw [this]
    constructor
    · rintro ⟨h1, _, h3⟩; exact ⟨h1, h3⟩
    · rintro ⟨h1, h3⟩; exact ⟨h1, rfl, h3⟩
  · intro _ it hmem
    by_cases hflag : st.hasHiddenFiles
    · have heq : (hfUpdate false vault st).items = (updateLoop false vault st.items).1 := by
        simp [hfUpdate, hflag]
      rw [heq] at hmem
      exact updateLoop_unhides vault st.items hWF it hmem
    · have heq : hfUpdate false vault st = st := by
        simp [hfUpdate, Bool.not_eq_true] at hflag ⊢
        simp [hflag]
      rw [heq] at hmem
      exact hFlag (by simpa using hflag) it hmem

/-- Witness for C9: with the hide setting on, `video.mp4` is marked while
`video.md` exists; after `video.md` is deleted, a fresh pass unmarks it. -/
theorem C9_hidden_files_update_witness :
    (∀ it ∈ (hfUpdate true ("video.md" :: [])
        ⟨false, ⟨"video.mp4", false⟩ :: []⟩).items,
      (it.hidden = true ↔
        (getNotePath it.path ≠ it.path ∧ getNotePath it.path ∈ ("video.md" :: [])))) ∧
    (∀ it ∈ (hfUpdate true ([] : List String)
        ⟨true, ⟨"video.mp4", true⟩ :: []⟩).items,
      (it.hidden = true ↔
        (getNotePath it.path ≠ it.path ∧ getNotePath it.path ∈ ([] : List String)))) :=
  ⟨(C9_hidden_files_update true ("video.md" :: []) ⟨false, ⟨"video.mp4", false⟩ :: []⟩
      (by decide) (by decide)).1 rfl,
   (C9_hidden_files_update true ([] : List String) ⟨true, ⟨"video.mp4", true⟩ :: []⟩
      (by decide) (by decide)).1 rfl⟩

/- ### Bulk remove selection (C10) -/

/-- C10: the vault-wide and per-folder bulk remove operations select every
eligible file — any file whose lowercased extension is not `md`, `canvas`
or `base` — regardless of the configured extension set and the exclusion
lists (their selection functions take no settings at all); in particular an
eligible file that `shouldCreateNoteFor` rejects under the current settings
is still selected. -/
theorem C10_remove_selection (vaultFiles : List TFile) (folder : String) (f : TFile)
    (s : FileNoteSettings) (_hsel : shouldCreateNoteFor s f = false)
    (helig : isEligibleFile f = true) (hmem : f ∈ vaultFiles) :
    (∀ (g : TFile) (l : List TFile),
       g ∈ removeAllFileNotesSelection l ↔ g ∈ l ∧ isEligibleFile g = true) ∧
    (∀ (g : TFile) (l : List TFile),
       g ∈ removeFileNotesInFolderSelection folder l ↔
         g ∈ l ∧ strStartsWith g.path (folder ++ "/") = true ∧
           isEligibleFile g = true) ∧
    f ∈ removeAllFileNotesSelection vaultFiles := by
  refine ⟨?_, ?_, ?_⟩
  · intro g l
    simp [removeAllFileNotesSelection, List.mem_filter]
  · intro g l
    simp [removeFileNotesInFolderSelection, List.mem_filter]
  · simp only [removeAllFileNotesSelection, List.mem_filter]
    exact ⟨hmem, helig⟩

/-- Witness for C10: `A/c.mp4` is not selected by batch create under empty
configured extensions, yet bulk remove selects it. -/
theorem C10_remove_selection_witness :
    shouldCreateNoteFor ⟨"", false, [], [], false, ""⟩ ⟨"A/c.mp4", "c.mp4", "mp4"⟩ = false ∧
    (⟨"A/c.mp4", "c.mp4", "mp4"⟩ : TFile) ∈
      removeAllFileNotesSelection (⟨"A/c.mp4", "c.mp4", "mp4"⟩ :: []) :=
  ⟨by decide,
   (C10_remove_selection (⟨"A/c.mp4", "c.mp4", "mp4"⟩ :: []) "A"
      ⟨"A/c.mp4", "c.mp4", "mp4"⟩ ⟨"", false, [], [], false, ""⟩
      (by decide) (by decide) (by decide)).2.2⟩

/- ### Notes-folder override (C3) -/

theorem baseName_decomp (dir base : List Char) (hb : '/' ∉ base) :
    baseNameChars (dir ++ '/' :: base) = base ∧
    parentDirChars (dir ++ '/' :: base) = dir := by
  have hall : ∀ c ∈ base.reverse, (fun c => decide (c ≠ '/')) c = true := by
    intro c hc
    simp only [decide_eq_true_eq]
    intro hceq
    exact hb (by simpa [hceq] using (List.mem_reverse.mp hc))
  have hrev : (dir ++ '/' :: base).reverse = base.reverse ++ '/' :: dir.reverse := by
    simp
  constructor
  · simp only [baseNameChars, hrev]
    rw [takeWhile_append_of_all _ _ _ hall]
    simp
  · simp only [parentDirChars, hrev]
    rw [dropWhile_append_of_all _ _ _ hall]
    simp

/-- C3 (settled against the spec-modelled `getNotePathWithFolder`): with an
empty notes-folder value the note sits beside the source (the derivation is
plain `getNotePath`); a relative-prefixed value `./X` yields subfolder `X`
of the source file's own folder; a plain value `X` yields the single shared
folder `X` regardless of where the source file is located. -/
theorem C3_notes_folder_modes (dir name ext X : List Char)
    (hdir : dir ≠ []) (hname : '/' ∉ name) (hext : '/' ∉ ext)
    (hdot : '.' ∉ ext) (hne : ext ≠ [])
    (hX0 : X ≠ []) (hXdot : strStartsWith ⟨X⟩ "." = false) :
    (∀ q : String, getNotePathWithFolder "" q = getNotePath q) ∧
    getNotePathWithFolder ⟨'.' :: '/' :: X⟩ ⟨dir ++ '/' :: (name ++ '.' :: ext)⟩ =
      ⟨dir ++ '/' :: (X ++ '/' :: (name ++ '.' :: 'm' :: 'd' :: []))⟩ ∧
    getNotePathWithFolder ⟨X⟩ ⟨dir ++ '/' :: (name ++ '.' :: ext)⟩ =
      ⟨X ++ '/' :: (name ++ '.' :: 'm' :: 'd' :: [])⟩ := by
  have hb : '/' ∉ name ++ '.' :: ext := by
    intro hmem
    rcases List.mem_append.mp hmem with h | h
    · exact hname h
    · rcases List.mem_cons.mp h with h | h
      · exact absurd h (by decide)
      · exact hext h
  obtain ⟨hbase, hparent⟩ := baseName_decomp dir (name ++ '.' :: ext) hb
  have hrepl : replaceExtChars (name ++ '.' :: ext) = name ++ '.' :: 'm' :: 'd' :: [] :=
    replaceExtChars_decomp name ext hne hdot
  have hdirne : dir.isEmpty = false := by
    cases dir with
    | nil => exact absurd rfl hdir
    | cons a as => rfl
  refine ⟨fun q => rfl, ?_, ?_⟩
  · have hc1 : (⟨'.' :: '/' :: X⟩ : String) ≠ "" := by
      intro h
      exact absurd (congrArg String.data h) (by simp)
    have hc2 : strStartsWith ⟨'.' :: '/' :: X⟩ "./" = true := by
      simp only [strStartsWith]
      rw [ List.isPrefixOf_iff_prefix]
      exact ⟨X, rfl⟩
    simp only [getNotePathWithFolder, if_neg hc1, hc2, if_true]
    rw [hparent, hbase, hrepl, hdirne]
    apply String.ext
    simp
  · have hc1 : (⟨X⟩ : String) ≠ "" := by
      intro h
      exact absurd (congrArg String.data h) (by simpa using hX0)
    have hc2 : strStartsWith ⟨X⟩ "./" = false := by
      cases hc : strStartsWith ⟨X⟩ "./" with
      | false => rfl
      | true =>
        exfalso
        simp only [strStartsWith] at hc hXdot
        rw [ List.isPrefixOf_iff_prefix] at hc
        have hpre : (['.'] : List Char) <+: X := List.IsPrefix.trans ⟨['/'], rfl⟩ hc
        rw [← List.isPrefixOf_iff_prefix] at hpre
        rw [hpre] at hXdot
        simp at hXdot
    simp only [getNotePathWithFolder, if_neg hc1, hc2]
    rw [hbase, hrepl]
    simp

/-- Witness for C3: source `dir/video.mp4`, folder values `./Notes`,
`Notes` and empty. -/
theorem C3_notes_folder_modes_witness :
    getNotePathWithFolder "./Notes" "dir/video.mp4" = "dir/Notes/video.md" ∧
    getNotePathWithFolder "Notes" "dir/video.mp4" = "Notes/video.md" :=
  ⟨(C3_notes_folder_modes "dir".data "video".data "mp4".data "Notes".data
      (by decide) (by decide) (by decide) (by decide) (by decide)
      (by decide) (by decide)).2.1,
   (C3_notes_folder_modes "dir".data "video".data "mp4".data "Notes".data
      (by decide) (by decide) (by decide) (by decide) (by decide)
      (by decide) (by decide)).2.2⟩

/- ### Note content at the failing input (C4) -/

/-- C4: the code passes the raw display name to JS `replace` as a
replacement pattern, so a display name containing `$&` is not inserted
literally: with template `# {{filename}}` and a file whose display name is
the two-character string `$&`, the generated content is `# {{filename}}`
(the matched placeholder is re-inserted) and not `# $&` as the literal
reading demands; for the spec's own scenario (`report.pdf`, which contains
no `$`) the substitution is literal and yields exactly `# report.pdf`. -/
theorem C4_note_content_at_failing_input :
    getNoteContent ⟨"", false, [], [], false, "# \x7b\x7bfilename\x7d\x7d"⟩
        ⟨"report.pdf", "report.pdf", "pdf"⟩ = "# report.pdf" ∧
    getNoteContent ⟨"", false, [], [], false, "# \x7b\x7bfilename\x7d\x7d"⟩
        ⟨"x", "$&", "x"⟩ = "# \x7b\x7bfilename\x7d\x7d" ∧
    ("# \x7b\x7bfilename\x7d\x7d" : String) ≠ "# $&" :=
  ⟨by decide, by decide, by decide⟩
